import Mathlib

/-!
Verification of the Backpack exchange connector (ccxt):
the REST signing path (`sign`, `getInstructionType` in `ts/src/backpack.ts`)
and the WebSocket stream client (`ts/src/pro/backpack.ts`).

Strings are modelled as Lean `String`/`List Char`; JS numbers that hold
integral epoch values as `Nat`/`Int`; decimal price/quantity strings are
parsed exactly into a normalized decimal representation `Dec` (mantissa
and scale), whose equality and zero test coincide with the JS float
comparison of the short decimal literals the exchange sends;
JS `undefined` as `Option`; a thrown JS exception as `Except`.
Helpers of the ccxt base library that are not part of the source slice
(`urlencode`, `safeIntegerProduct`, `handleDelta`/`OrderBookSide`,
`ArrayCache*`, `signMessage`) are modelled from the spec, as marked.
-/

namespace Backpack

/-! ## Occurrence counting for substrings -/

/-- Number of positions at which `pat` occurs as a contiguous sublist of `s`. -/
def occurs (pat : List Char) : List Char → Nat
  | [] => 0
  | c :: rest => (if pat <+: (c :: rest) then 1 else 0) + occurs pat rest

/-- Number of occurrences of the string `pat` inside `s`. -/
def countSub (pat s : String) : Nat := occurs pat.data s.data

theorem occurs_nil (pat : List Char) : occurs pat [] = 0 := rfl

theorem occurs_eq_zero_of_not_mem {pat s : List Char} {c : Char}
    (hc : c ∈ pat) (hs : c ∉ s) : occurs pat s = 0 := by
  induction s with
  | nil => rfl
  | cons a rest ih =>
    have hrest : c ∉ rest := fun h => hs (List.mem_cons_of_mem _ h)
    have hnp : ¬ pat <+: (a :: rest) := fun hp => hs (hp.subset hc)
    simp [occurs, hnp, ih hrest]

theorem prefix_append_cons_iff {pat t u : List Char} {c : Char} (hc : c ∉ pat) :
    (pat <+: (t ++ c :: u)) ↔ pat <+: t := by
  induction pat generalizing t with
  | nil => simp
  | cons p ps ih =>
    cases t with
    | nil =>
      constructor
      · intro h
        rw [List.nil_append, List.cons_prefix_cons] at h
        exact absurd h.1.symm (fun he => hc (he ▸ List.mem_cons_self _ _))
      · intro h
        exact absurd (List.prefix_nil.mp h) (by simp)
    | cons a t' =>
      have hc' : c ∉ ps := fun h => hc (List.mem_cons_of_mem _ h)
      rw [List.cons_append, List.cons_prefix_cons, List.cons_prefix_cons]
      exact and_congr_right (fun _ => ih hc')

/-- Occurrences split across a separator character that the pattern avoids. -/
theorem occurs_append_cons {pat : List Char} (t u : List Char) {c : Char}
    (hc : c ∉ pat) (hne : pat ≠ []) :
    occurs pat (t ++ c :: u) = occurs pat t + occurs pat u := by
  induction t with
  | nil =>
    have hnp : ¬ pat <+: (c :: u) := by
      intro hp
      cases pat with
      | nil => exact hne rfl
      | cons p ps =>
        rw [List.cons_prefix_cons] at hp
        exact hc (hp.1 ▸ List.mem_cons_self _ _)
    simp [occurs, hnp]
  | cons a t' ih =>
    have hiff := prefix_append_cons_iff (t := a :: t') (u := u) hc
    rw [List.cons_append, occurs, occurs, ih]
    rw [List.cons_append] at hiff
    have hif : (if pat <+: a :: (t' ++ c :: u) then 1 else 0) =
        (if pat <+: a :: t' then 1 else 0) := if_congr hiff rfl rfl
    rw [hif, Nat.add_assoc]

theorem pat_prefix_kv_iff {instr k v : List Char} {e : Char}
    (h1 : e ∉ instr) (h2 : e ∉ k) :
    ((instr ++ [e]) <+: (k ++ e :: v)) ↔ instr = k := by
  induction instr generalizing k with
  | nil =>
    cases k with
    | nil => simp
    | cons a k' =>
      simp only [List.nil_append, List.cons_append, List.cons_prefix_cons]
      constructor
      · rintro ⟨he, -⟩
        exact absurd he.symm (fun h => h2 (h ▸ List.mem_cons_self _ _))
      · intro h
        exact absurd h (by simp)
  | cons x xs ih =>
    cases k with
    | nil =>
      simp only [List.cons_append, List.nil_append, List.cons_prefix_cons]
      constructor
      · rintro ⟨he, -⟩
        exact absurd he (fun h => h1 (h ▸ List.mem_cons_self _ _))
      · intro h
        exact absurd h (by simp)
    | cons a k' =>
      have h1' : e ∉ xs := fun h => h1 (List.mem_cons_of_mem _ h)
      have h2' : e ∉ k' := fun h => h2 (List.mem_cons_of_mem _ h)
      simp only [List.cons_append, List.cons_prefix_cons, ih h1' h2',
        List.cons.injEq]

/-- Occurrence count of the pattern `instr ++ [e]` in a token `k ++ e :: v`
whose pieces are `e`-free: one when `instr` is a suffix of `k`, else zero. -/
theorem occurs_kv {instr k v : List Char} {e : Char}
    (h1 : e ∉ instr) (h2 : e ∉ k) (h3 : e ∉ v) :
    occurs (instr ++ [e]) (k ++ e :: v) =
      if instr <:+ k then 1 else 0 := by
  induction k with
  | nil =>
    have hz : occurs (instr ++ [e]) v = 0 :=
      occurs_eq_zero_of_not_mem (List.mem_append_right instr (List.mem_singleton_self e)) h3
    have hp := pat_prefix_kv_iff (v := v) h1 h2
    rw [List.nil_append] at hp
    rw [List.nil_append, occurs, hz]
    by_cases h : instr = ([] : List Char)
    · rw [if_pos (hp.mpr h), if_pos (by rw [h])]
    · rw [if_neg (fun hx => h (hp.mp hx)),
        if_neg (fun hx => h (List.suffix_nil.mp hx))]
  | cons a k' ih =>
    have h2' : e ∉ k' := fun h => h2 (List.mem_cons_of_mem _ h)
    have hp := pat_prefix_kv_iff (v := v) h1 h2
    have hsuf : (instr <:+ a :: k') ↔ (instr = a :: k' ∨ instr <:+ k') :=
      List.suffix_cons_iff
    rw [List.cons_append, occurs, ← List.cons_append, ih h2']
    by_cases heq : instr = a :: k'
    · have hns : ¬ instr <:+ k' := by
        intro hs
        have := hs.length_le
        rw [heq] at this
        simp at this
      rw [if_pos (hp.mpr heq), if_neg hns, if_pos (hsuf.mpr (Or.inl heq))]
    · by_cases hs : instr <:+ k'
      · rw [if_neg (fun hx => heq (hp.mp hx)), if_pos hs,
          if_pos (hsuf.mpr (Or.inr hs))]
      · rw [if_neg (fun hx => heq (hp.mp hx)), if_neg hs,
          if_neg (fun hx => (hsuf.mp hx).elim heq hs)]

/-! ## Decimal rendering of integers (JS `Number.prototype.toString`) -/

/-- Character for the decimal digit `n % 10`. -/
def digitChar (n : Nat) : Char := Char.ofNat (48 + n % 10)

/-- Decimal digit list of `n`, fuelled (fuel `n + 1` always suffices). -/
def natDigitsAux : Nat → Nat → List Char
  | 0, _ => []
  | fuel + 1, n =>
    if n < 10 then [digitChar n]
    else natDigitsAux fuel (n / 10) ++ [digitChar (n % 10)]

/-- Decimal digit list of a natural number. -/
def natDigits (n : Nat) : List Char := natDigitsAux (n + 1) n

/-- Decimal string of a natural number, as JS `toString` renders it. -/
def natToString (n : Nat) : String := ⟨natDigits n⟩

theorem mem_natDigitsAux {c : Char} :
    ∀ {fuel n : Nat}, c ∈ natDigitsAux fuel n → ∃ d, d < 10 ∧ c = Char.ofNat (48 + d)
  | 0, _, h => absurd h (by simp [natDigitsAux])
  | fuel + 1, n, h => by
    rw [natDigitsAux] at h
    by_cases hn : n < 10
    · rw [if_pos hn, List.mem_singleton] at h
      exact ⟨n % 10, Nat.mod_lt _ (by omega), h⟩
    · rw [if_neg hn, List.mem_append] at h
      cases h with
      | inl h => exact mem_natDigitsAux h
      | inr h =>
        rw [List.mem_singleton] at h
        exact ⟨n % 10 % 10, Nat.mod_lt _ (by omega), h⟩

theorem mem_natDigits {c : Char} {n : Nat} (h : c ∈ natDigits n) :
    ∃ d, d < 10 ∧ c = Char.ofNat (48 + d) := mem_natDigitsAux h

theorem eq_char_not_mem_natDigits (n : Nat) : ('=' : Char) ∉ natDigits n := by
  intro h
  obtain ⟨d, hd, hc⟩ := mem_natDigits h
  revert hc
  revert d
  decide

theorem amp_char_not_mem_natDigits (n : Nat) : ('&' : Char) ∉ natDigits n := by
  intro h
  obtain ⟨d, hd, hc⟩ := mem_natDigits h
  revert hc
  revert d
  decide

/-! ## URL encoding and key sorting

Modelled from the spec (§4.1): the base-library `keysort`/`urlencode`
helpers are not part of the source slice.  `keysort` sorts parameter keys
lexicographically (stable insertion sort; JS object keys are unique, so
stability is immaterial); `urlencode` renders `key=value` pairs joined by
`&`, percent-encoding every character outside the RFC 3986 unreserved set
(byte-level encoding; the connector only sends ASCII parameter data). -/

/-- Insert a pair before the first entry with a strictly larger key. -/
def insertByKey (p : String × String) :
    List (String × String) → List (String × String)
  | [] => [p]
  | q :: rest => if p.1 ≤ q.1 then p :: q :: rest else q :: insertByKey p rest

/-- Sort an association list by key, lexicographically (ccxt `keysort`). -/
def keysort : List (String × String) → List (String × String)
  | [] => []
  | p :: rest => insertByKey p (keysort rest)

/-- Unreserved characters kept verbatim by the URL encoder. -/
def isUnreserved (c : Char) : Bool :=
  decide ((65 ≤ c.toNat ∧ c.toNat ≤ 90) ∨ (97 ≤ c.toNat ∧ c.toNat ≤ 122) ∨
    (48 ≤ c.toNat ∧ c.toNat ≤ 57) ∨ c = '-' ∨ c = '_' ∨ c = '.' ∨ c = '~')

/-- Uppercase hexadecimal digit character for `n % 16`. -/
def hexDigit (n : Nat) : Char :=
  (("0123456789ABCDEF").data).getD (n % 16) (Char.ofNat 48)

/-- Percent-encoding of one character. -/
def encodeChar (c : Char) : List Char :=
  if isUnreserved c then [c]
  else ['%', hexDigit (c.toNat / 16), hexDigit c.toNat]

/-- Percent-encoding of a string, at the character-list level. -/
def percentEncodeL (s : List Char) : List Char := (s.map encodeChar).flatten

/-- Rendering of one `key=value` pair (ccxt `urlencode`, per pair). -/
def encodePairL (p : String × String) : List Char :=
  percentEncodeL p.1.data ++ '=' :: percentEncodeL p.2.data

/-- Join a list of rendered pieces with `&` (JS `Array.prototype.join`). -/
def joinAmpL : List (List Char) → List Char
  | [] => []
  | [x] => x
  | x :: xs => x ++ '&' :: joinAmpL xs

/-- ccxt `urlencode` of an association list, at the character-list level. -/
def urlencodeL (kvs : List (String × String)) : List Char :=
  joinAmpL (kvs.map encodePairL)

theorem hexDigit_props (n : Nat) : hexDigit n ≠ '=' ∧ hexDigit n ≠ '&' := by
  have h : n % 16 < 16 := Nat.mod_lt _ (by omega)
  have hall : ∀ m, m < 16 →
      (("0123456789ABCDEF").data).getD m (Char.ofNat 48) ≠ '=' ∧
      (("0123456789ABCDEF").data).getD m (Char.ofNat 48) ≠ '&' := by decide
  exact hall _ h

theorem eq_char_not_mem_encodeChar (c : Char) : ('=' : Char) ∉ encodeChar c := by
  intro h
  rw [encodeChar] at h
  by_cases hu : isUnreserved c
  · rw [if_pos hu, List.mem_singleton] at h
    subst h
    exact absurd hu (by decide)
  · rw [if_neg hu] at h
    simp only [List.mem_cons, List.not_mem_nil, or_false] at h
    rcases h with h | h | h
    · exact absurd h.symm (by decide)
    · exact (hexDigit_props _).1 h.symm
    · exact (hexDigit_props _).1 h.symm

theorem amp_char_not_mem_encodeChar (c : Char) : ('&' : Char) ∉ encodeChar c := by
  intro h
  rw [encodeChar] at h
  by_cases hu : isUnreserved c
  · rw [if_pos hu, List.mem_singleton] at h
    subst h
    exact absurd hu (by decide)
  · rw [if_neg hu] at h
    simp only [List.mem_cons, List.not_mem_nil, or_false] at h
    rcases h with h | h | h
    · exact absurd h.symm (by decide)
    · exact (hexDigit_props _).2 h.symm
    · exact (hexDigit_props _).2 h.symm

theorem eq_char_not_mem_percentEncodeL (s : List Char) :
    ('=' : Char) ∉ percentEncodeL s := by
  intro h
  rw [percentEncodeL] at h
  obtain ⟨l, hl, hmem⟩ := List.mem_flatten.mp h
  obtain ⟨c, -, hc⟩ := List.mem_map.mp hl
  exact eq_char_not_mem_encodeChar c (hc ▸ hmem)

theorem mem_insertByKey {a p : String × String} {l : List (String × String)} :
    a ∈ insertByKey p l ↔ a = p ∨ a ∈ l := by
  induction l with
  | nil => simp [insertByKey]
  | cons q rest ih =>
    rw [insertByKey]
    by_cases h : p.1 ≤ q.1
    · rw [if_pos h]
      simp
    · rw [if_neg h]
      simp only [List.mem_cons, ih]
      tauto

theorem mem_keysort {a : String × String} {l : List (String × String)} :
    a ∈ keysort l ↔ a ∈ l := by
  induction l with
  | nil => simp [keysort]
  | cons p rest ih =>
    rw [keysort, mem_insertByKey, ih]
    simp

theorem length_insertByKey (p : String × String) (l : List (String × String)) :
    (insertByKey p l).length = l.length + 1 := by
  induction l with
  | nil => rfl
  | cons q rest ih =>
    rw [insertByKey]
    by_cases h : p.1 ≤ q.1
    · rw [if_pos h]
      rfl
    · rw [if_neg h]
      simp [ih]

theorem length_keysort (l : List (String × String)) :
    (keysort l).length = l.length := by
  induction l with
  | nil => rfl
  | cons p rest ih =>
    rw [keysort, length_insertByKey, ih]
    rfl

theorem keysort_eq_nil_iff {l : List (String × String)} :
    keysort l = [] ↔ l = [] := by
  constructor
  · intro h
    have := length_keysort l
    rw [h] at this
    exact List.length_eq_zero.mp this.symm
  · intro h
    rw [h]
    rfl

/-- Occurrences of `instr ++ ['=']` in one encoded pair: zero unless
`instr` is a suffix of the encoded key. -/
theorem occurs_encodePairL (instr : List Char) (p : String × String)
    (h1 : ('=' : Char) ∉ instr) :
    occurs (instr ++ ['=']) (encodePairL p) =
      if instr <:+ percentEncodeL p.1.data then 1 else 0 :=
  occurs_kv h1 (eq_char_not_mem_percentEncodeL _) (eq_char_not_mem_percentEncodeL _)

/-! ## Instruction resolver (`getInstructionType`, ts/src/backpack.ts 907-917)

The table below is the `options.instructionTypes` map from `describe ()`
(ts/src/backpack.ts lines 197-220). -/

/-- Exact lookup in an association list with string keys (ccxt `safeString`
on a dictionary). -/
def lookupStr {α : Type} (l : List (String × α)) (k : String) : Option α :=
  match l with
  | [] => none
  | e :: rest => if e.1 = k then some e.2 else lookupStr rest k

/-- The `options.instructionTypes` endpoint table. -/
def instructionTypes : List (String × String) :=
  [ ("GET:account", "accountQuery")
  , ("GET:capital", "balanceQuery")
  , ("GET:capital/collateral", "collateralQuery")
  , ("GET:orders", "orderQueryAll")
  , ("GET:history/orders", "orderHistoryQueryAll")
  , ("GET:order", "orderQuery")
  , ("GET:fills", "fillHistoryQueryAll")
  , ("GET:positions", "positionQuery")
  , ("GET:capital/deposits", "depositQueryAll")
  , ("GET:capital/withdrawals", "withdrawalQueryAll")
  , ("GET:position", "positionQuery")
  , ("GET:history/funding", "fundingHistoryQueryAll")
  , ("GET:history/interest", "interestHistoryQueryAll")
  , ("GET:history/pnl", "pnlHistoryQueryAll")
  , ("GET:history/settlement", "settlementHistoryQueryAll")
  , ("GET:capital/deposit/address", "depositAddressQuery")
  , ("POST:orders", "orderExecute")
  , ("POST:borrowLend", "borrowLendExecute")
  , ("POST:capital/withdraw", "withdraw")
  , ("DELETE:order", "orderCancel")
  , ("DELETE:orders", "orderCancelAll") ]

/-- The opening-brace character, written numerically. -/
def lbrace : Char := Char.ofNat 123

/-- The closing-brace character, written numerically. -/
def rbrace : Char := Char.ofNat 125

/-- The canonical placeholder the path normalizer substitutes, `(orderId)`
with braces. -/
def placeholder : List Char := lbrace :: "orderId".data ++ [rbrace]

/-- Split a character list at its first closing brace:
`some (before, after)` when one exists, `none` otherwise. -/
def splitAtRBrace : List Char → Option (List Char × List Char)
  | [] => none
  | c :: rest =>
    if c = rbrace then some ([], rest)
    else (splitAtRBrace rest).map (fun p => (c :: p.1, p.2))

/-- One step of the JS global regex replace
`path.replace (/(\x7b[^\x7d]+\x7d)/g, placeholder)`: on an opening brace,
a nonempty run of non-closing-brace characters followed by a closing brace
is replaced by the placeholder; otherwise the character is kept and
scanning continues.  Fuelled so that it is structurally recursive (fuel
`≥` the list length always suffices). -/
def normalizeAux : Nat → List Char → List Char
  | 0, l => l
  | _ + 1, [] => []
  | fuel + 1, c :: rest =>
    if c = lbrace then
      match splitAtRBrace rest with
      | some (content, after) =>
        if content = [] then c :: normalizeAux fuel rest
        else placeholder ++ normalizeAux fuel after
      | none => c :: normalizeAux fuel rest
    else c :: normalizeAux fuel rest

/-- Path-parameter normalization performed by `getInstructionType`
(ts/src/backpack.ts line 909). -/
def normalizePath (path : String) : String :=
  ⟨normalizeAux path.data.length path.data⟩

/-- `getInstructionType (path, method)`: normalize path parameters, look
the `method:path` key up in the table, and raise `NotSupported` when
absent (ts/src/backpack.ts 907-917). -/
def getInstructionType (path method : String) : Except String String :=
  let key := method ++ ":" ++ normalizePath path
  match lookupStr instructionTypes key with
  | some instruction => Except.ok instruction
  | none => Except.error ("backpack " ++ key ++ " is not supported yet")

theorem splitAtRBrace_append {x : List Char} (y : List Char)
    (hx : rbrace ∉ x) : splitAtRBrace (x ++ rbrace :: y) = some (x, y) := by
  induction x with
  | nil => simp [splitAtRBrace]
  | cons a x' ih =>
    have ha : a ≠ rbrace := fun h => hx (h ▸ List.mem_cons_self _ _)
    have hx' : rbrace ∉ x' := fun h => hx (List.mem_cons_of_mem _ h)
    rw [List.cons_append, splitAtRBrace, if_neg ha, ih hx']
    rfl

theorem splitAtRBrace_none {x : List Char} (hx : rbrace ∉ x) :
    splitAtRBrace x = none := by
  induction x with
  | nil => rfl
  | cons a x' ih =>
    have ha : a ≠ rbrace := fun h => hx (h ▸ List.mem_cons_self _ _)
    have hx' : rbrace ∉ x' := fun h => hx (List.mem_cons_of_mem _ h)
    rw [splitAtRBrace, if_neg ha, ih hx']
    rfl

theorem splitAtRBrace_shape :
    ∀ {l content after : List Char}, splitAtRBrace l = some (content, after) →
      l = content ++ rbrace :: after
  | [], _, _, h => absurd h (by simp [splitAtRBrace])
  | c :: rest, content, after, h => by
    rw [splitAtRBrace] at h
    by_cases hc : c = rbrace
    · rw [if_pos hc, Option.some.injEq, Prod.mk.injEq] at h
      rw [← h.1, ← h.2, hc]
      rfl
    · rw [if_neg hc] at h
      match hs : splitAtRBrace rest with
      | none => rw [hs] at h; exact absurd h (by simp)
      | some (content', after') =>
        rw [hs] at h
        simp only [Option.map_some', Option.some.injEq, Prod.mk.injEq] at h
        rw [← h.1, ← h.2, splitAtRBrace_shape hs]
        rfl

/-- The fuelled normalizer does not depend on the fuel, as long as the
fuel covers the list length. -/
theorem normalizeAux_fuel : ∀ (n : Nat) (l : List Char) (f₁ f₂ : Nat),
    l.length ≤ n → l.length ≤ f₁ → l.length ≤ f₂ →
    normalizeAux f₁ l = normalizeAux f₂ l := by
  intro n
  induction n with
  | zero =>
    intro l f₁ f₂ hn _ _
    have : l = [] := List.length_eq_zero.mp (Nat.le_zero.mp hn)
    subst this
    cases f₁ <;> cases f₂ <;> rfl
  | succ n ih =>
    intro l f₁ f₂ hn h1 h2
    cases l with
    | nil => cases f₁ <;> cases f₂ <;> rfl
    | cons c rest =>
      have hlen : rest.length + 1 = (c :: rest).length := rfl
      cases f₁ with
      | zero => exact absurd h1 (by simp)
      | succ g₁ =>
        cases f₂ with
        | zero => exact absurd h2 (by simp)
        | succ g₂ =>
          have hrest_n : rest.length ≤ n := by
            simp only [List.length_cons] at hn
            omega
          have hrest1 : rest.length ≤ g₁ := by
            simp only [List.length_cons] at h1
            omega
          have hrest2 : rest.length ≤ g₂ := by
            simp only [List.length_cons] at h2
            omega
          rw [normalizeAux, normalizeAux]
          by_cases hc : c = lbrace
          · rw [if_pos hc, if_pos hc]
            cases hs : splitAtRBrace rest with
            | none =>
              simp only [hs]
              rw [ih rest g₁ g₂ hrest_n hrest1 hrest2]
            | some p =>
              obtain ⟨content, after⟩ := p
              have hshape := splitAtRBrace_shape hs
              have hafter : after.length ≤ n := by
                rw [hshape] at hrest_n
                simp only [List.length_append, List.length_cons] at hrest_n
                omega
              have hafter1 : after.length ≤ g₁ := by
                rw [hshape] at hrest1
                simp only [List.length_append, List.length_cons] at hrest1
                omega
              have hafter2 : after.length ≤ g₂ := by
                rw [hshape] at hrest2
                simp only [List.length_append, List.length_cons] at hrest2
                omega
              simp only [hs]
              by_cases hcont : content = []
              · rw [if_pos hcont, if_pos hcont,
                  ih rest g₁ g₂ hrest_n hrest1 hrest2]
              · rw [if_neg hcont, if_neg hcont,
                  ih after g₁ g₂ hafter hafter1 hafter2]
          · rw [if_neg hc, if_neg hc, ih rest g₁ g₂ hrest_n hrest1 hrest2]

/-! ## REST signing (`sign`, ts/src/backpack.ts 821-894)

Only the private branch matters here (query assembly and signature
payload).  The runtime shape of `params` for a private call is either a
JS object (modelled as an association list) or a top-level array of
objects (batch orders): `Array.isArray` detection is by constructor.
For `GET`/`DELETE` the source applies `keysort`/`urlencode` to the value
it was handed; on a top-level array that combination has no defined
meaning in the base library, so the embedding marks those inputs
`undefinedEncoding` rather than inventing a behavior (no claim touches
them). -/

/-- Runtime shape of the private-call `query` value. -/
inductive QueryShape where
  | obj (kvs : List (String × String))
  | arr (objs : List (List (String × String)))
deriving DecidableEq

/-- `Array.isArray (query)`. -/
def isArr : QueryShape → Bool
  | .obj _ => false
  | .arr _ => true

/-- One batch segment: `'instruction=' + instruction + '&' + orderQuery`
(ts/src/backpack.ts line 859). -/
def orderSegmentL (instruction : String) (o : List (String × String)) : List Char :=
  "instruction=".data ++ instruction.data ++ '&' :: urlencodeL (keysort o)

/-- The `queryString` local of `sign` (ts/src/backpack.ts 835-869),
per HTTP method and query shape. -/
def queryStringL (method instruction : String) : QueryShape → Option (List Char)
  | .obj kvs =>
    -- the GET, DELETE and single-object write branches all sort and
    -- urlencode a nonempty object, and leave the empty string otherwise
    some (if kvs = [] then [] else urlencodeL (keysort kvs))
  | .arr objs =>
    if method = "GET" ∨ method = "DELETE" then none
    else some (joinAmpL (objs.map (orderSegmentL instruction)))

/-- Errors of the private `sign` path. -/
inductive SignError where
  | notSupported (msg : String)
  | undefinedEncoding
deriving DecidableEq

/-- The signature payload assembled by `sign` (ts/src/backpack.ts
870-882): for a batch array the query string (which already carries one
instruction prefix per element) is the payload base; otherwise
`instruction=<name>` plus `&<queryString>` when the query string is
nonempty; then `&timestamp=<ms>&window=<ms>`. -/
def signaturePayloadL (method instruction : String) (q : QueryShape)
    (ts window : Nat) : Option (List Char) :=
  (queryStringL method instruction q).map (fun qs =>
    (if isArr q then qs
     else "instruction=".data ++ instruction.data ++
       (if qs = [] then [] else '&' :: qs)) ++
    "&timestamp=".data ++ natDigits ts ++ "&window=".data ++ natDigits window)

/-- The private branch of `sign` restricted to its signature payload:
resolve the instruction (propagating `NotSupported`), read the validity
window from `options.recvWindow` with default `5000`, and assemble the
payload (ts/src/backpack.ts 829-882).  `ts` stands for
`this.milliseconds ()`.  The url/body/header assembly around the payload
(lines 822-827, 841-848, 862-867, 885-891) carries no signing logic and
is not modelled. -/
def sign (path method : String) (q : QueryShape) (recvWindow : Option Nat)
    (ts : Nat) : Except SignError String :=
  match getInstructionType path method with
  | .error e => .error (.notSupported e)
  | .ok instruction =>
    match signaturePayloadL method instruction q ts (recvWindow.getD 5000) with
    | none => .error .undefinedEncoding
    | some payload => .ok ⟨payload⟩

/-- Modelled from the spec (§4.1 steps 2 and 4): the payload of a read or
single-object write is `instruction=<name>`, then `&<sorted-urlencoded
params>` when parameters exist, then `&timestamp=<ms>&window=<ms>`. -/
def specSinglePayload (instruction : String) (kvs : List (String × String))
    (ts window : Nat) : String :=
  ⟨"instruction=".data ++ instruction.data ++
    (if kvs = [] then [] else '&' :: urlencodeL (keysort kvs)) ++
    "&timestamp=".data ++ natDigits ts ++ "&window=".data ++ natDigits window⟩

/-- Modelled from the spec (§4.1 steps 3 and 4): the payload of a batch
write is one `instruction=<name>&<sorted-encoded-object>` segment per
array element, joined with `&`, with no instruction prefix outside the
segments, then `&timestamp=<ms>&window=<ms>`. -/
def specBatchPayload (instruction : String)
    (objs : List (List (String × String))) (ts window : Nat) : String :=
  ⟨joinAmpL (objs.map (fun o =>
      "instruction=".data ++ instruction.data ++ '&' :: urlencodeL (keysort o))) ++
    "&timestamp=".data ++ natDigits ts ++ "&window=".data ++ natDigits window⟩

/-! ## Parameter independence of instruction resolution -/

/-- Length-fuelled normalization, the form `normalizePath` uses. -/
def normList (l : List Char) : List Char := normalizeAux l.length l

theorem normalizeAux_eq_normList {f : Nat} {l : List Char} (h : l.length ≤ f) :
    normalizeAux f l = normList l :=
  normalizeAux_fuel l.length l f l.length (Nat.le_refl _) h (Nat.le_refl _)

theorem normalizePath_eq (path : String) : normalizePath path = ⟨normList path.data⟩ := rfl

theorem first_split {c : Char} {l : List Char} (h : c ∈ l) :
    ∃ u w, l = u ++ c :: w ∧ c ∉ u := by
  induction l with
  | nil => exact absurd h (List.not_mem_nil _)
  | cons a rest ih =>
    by_cases ha : a = c
    · exact ⟨[], rest, by rw [ha]; rfl, List.not_mem_nil _⟩
    · have hr : c ∈ rest := by
        rcases List.mem_cons.mp h with h1 | h1
        · exact absurd h1.symm ha
        · exact h1
      obtain ⟨u, w, hl, hu⟩ := ih hr
      refine ⟨a :: u, w, by rw [hl]; rfl, ?_⟩
      intro hmem
      rcases List.mem_cons.mp hmem with h1 | h1
      · exact ha h1.symm
      · exact hu h1

theorem normList_lbrace_cons {x post : List Char} (hx : rbrace ∉ x) (hxne : x ≠ []) :
    normList (lbrace :: (x ++ rbrace :: post)) = placeholder ++ normList post := by
  show normalizeAux (lbrace :: (x ++ rbrace :: post)).length _ = _
  have hlen : (lbrace :: (x ++ rbrace :: post)).length =
      (x.length + post.length + 1) + 1 := by
    simp only [List.length_cons, List.length_append]
    omega
  rw [hlen, normalizeAux, if_pos rfl]
  simp only [splitAtRBrace_append post hx]
  rw [if_neg hxne, normalizeAux_eq_normList (by omega)]

/-- Normalization of a path with a brace-delimited parameter segment does
not depend on the segment's content. -/
theorem normList_indep : ∀ (n : Nat) (pre a b post : List Char),
    pre.length ≤ n → rbrace ∉ a → a ≠ [] → rbrace ∉ b → b ≠ [] →
    normList (pre ++ lbrace :: (a ++ rbrace :: post)) =
      normList (pre ++ lbrace :: (b ++ rbrace :: post)) := by
  intro n
  induction n with
  | zero =>
    intro pre a b post hn ha hane hb hbne
    have hpre : pre = [] := List.length_eq_zero.mp (Nat.le_zero.mp hn)
    subst hpre
    rw [List.nil_append, List.nil_append, normList_lbrace_cons ha hane,
      normList_lbrace_cons hb hbne]
  | succ n ih =>
    intro pre a b post hn ha hane hb hbne
    cases pre with
    | nil =>
      rw [List.nil_append, List.nil_append, normList_lbrace_cons ha hane,
        normList_lbrace_cons hb hbne]
    | cons c pre' =>
      have hn' : pre'.length ≤ n := by
        simp only [List.length_cons] at hn
        omega
      show normalizeAux (c :: (pre' ++ lbrace :: (a ++ rbrace :: post))).length
          (c :: (pre' ++ lbrace :: (a ++ rbrace :: post))) =
        normalizeAux (c :: (pre' ++ lbrace :: (b ++ rbrace :: post))).length
          (c :: (pre' ++ lbrace :: (b ++ rbrace :: post)))
      rw [List.length_cons, List.length_cons, normalizeAux, normalizeAux]
      by_cases hc : c = lbrace
      · rw [if_pos hc, if_pos hc]
        by_cases hmem : rbrace ∈ pre'
        · obtain ⟨u, w, hpre, hu⟩ := first_split hmem
          have hsplit_a : splitAtRBrace (pre' ++ lbrace :: (a ++ rbrace :: post)) =
              some (u, w ++ lbrace :: (a ++ rbrace :: post)) := by
            rw [hpre, List.append_assoc, List.cons_append]
            exact splitAtRBrace_append _ hu
          have hsplit_b : splitAtRBrace (pre' ++ lbrace :: (b ++ rbrace :: post)) =
              some (u, w ++ lbrace :: (b ++ rbrace :: post)) := by
            rw [hpre, List.append_assoc, List.cons_append]
            exact splitAtRBrace_append _ hu
          have hwn : w.length ≤ n := by
            rw [hpre] at hn'
            simp only [List.length_append, List.length_cons] at hn'
            omega
          simp only [hsplit_a, hsplit_b]
          by_cases hu0 : u = []
          · rw [if_pos hu0, if_pos hu0,
              normalizeAux_eq_normList (Nat.le_refl _),
              normalizeAux_eq_normList (Nat.le_refl _)]
            exact congrArg _ (ih pre' a b post hn' ha hane hb hbne)
          · rw [if_neg hu0, if_neg hu0,
              normalizeAux_eq_normList
                (by rw [hpre]; simp only [List.length_append, List.length_cons]; omega),
              normalizeAux_eq_normList
                (by rw [hpre]; simp only [List.length_append, List.length_cons]; omega)]
            exact congrArg _ (ih w a b post hwn ha hane hb hbne)
        · have hna : rbrace ∉ pre' ++ lbrace :: a := by
            intro hx
            rcases List.mem_append.mp hx with hx | hx
            · exact hmem hx
            · rcases List.mem_cons.mp hx with hx | hx
              · exact absurd hx (by decide)
              · exact ha hx
          have hnb : rbrace ∉ pre' ++ lbrace :: b := by
            intro hx
            rcases List.mem_append.mp hx with hx | hx
            · exact hmem hx
            · rcases List.mem_cons.mp hx with hx | hx
              · exact absurd hx (by decide)
              · exact hb hx
          have hsplit_a : splitAtRBrace (pre' ++ lbrace :: (a ++ rbrace :: post)) =
              some (pre' ++ lbrace :: a, post) := by
            rw [show pre' ++ lbrace :: (a ++ rbrace :: post) =
              (pre' ++ lbrace :: a) ++ rbrace :: post by simp]
            exact splitAtRBrace_append _ hna
          have hsplit_b : splitAtRBrace (pre' ++ lbrace :: (b ++ rbrace :: post)) =
              some (pre' ++ lbrace :: b, post) := by
            rw [show pre' ++ lbrace :: (b ++ rbrace :: post) =
              (pre' ++ lbrace :: b) ++ rbrace :: post by simp]
            exact splitAtRBrace_append _ hnb
          simp only [hsplit_a, hsplit_b]
          rw [if_neg (by simp), if_neg (by simp),
            normalizeAux_eq_normList
              (by simp only [List.length_append, List.length_cons]; omega),
            normalizeAux_eq_normList
              (by simp only [List.length_append, List.length_cons]; omega)]
      · rw [if_neg hc, if_neg hc,
          normalizeAux_eq_normList (Nat.le_refl _),
          normalizeAux_eq_normList (Nat.le_refl _)]
        exact congrArg _ (ih pre' a b post hn' ha hane hb hbne)

theorem lookupStr_mem {α : Type} {l : List (String × α)} {k : String} {v : α}
    (h : lookupStr l k = some v) : (k, v) ∈ l := by
  induction l with
  | nil => exact absurd h (by simp [lookupStr])
  | cons e rest ih =>
    rw [lookupStr] at h
    by_cases he : e.1 = k
    · rw [if_pos he, Option.some.injEq] at h
      rw [← he, ← h]
      exact List.mem_cons_self _ _
    · rw [if_neg he] at h
      exact List.mem_cons_of_mem _ (ih h)

theorem getInstructionType_ok_iff {path method instruction : String} :
    getInstructionType path method = Except.ok instruction ↔
      lookupStr instructionTypes (method ++ ":" ++ normalizePath path) =
        some instruction := by
  rw [getInstructionType]
  cases h : lookupStr instructionTypes (method ++ ":" ++ normalizePath path) with
  | none => simp [h]
  | some i => simp [h]

/-- A one-character string holding the opening brace. -/
def lbraceStr : String := ⟨[lbrace]⟩

/-- A one-character string holding the closing brace. -/
def rbraceStr : String := ⟨[rbrace]⟩

/-- C6: instruction resolution is invariant under the content of a
brace-delimited path-parameter segment: for every verb and every pair of
paths differing only in the parameter segment's (nonempty, brace-free)
content, `getInstructionType` returns the same result, because the
normalizer replaces every such segment with the canonical `orderId`
placeholder before the table lookup. -/
theorem getInstructionType_param_indep (method pre a b post : String)
    (ha1 : rbrace ∉ a.data) (ha2 : a.data ≠ []) (hb1 : rbrace ∉ b.data)
    (hb2 : b.data ≠ []) :
    getInstructionType (pre ++ lbraceStr ++ a ++ rbraceStr ++ post) method =
      getInstructionType (pre ++ lbraceStr ++ b ++ rbraceStr ++ post) method := by
  have hdata : ∀ x : String, (pre ++ lbraceStr ++ x ++ rbraceStr ++ post).data =
      pre.data ++ lbrace :: (x.data ++ rbrace :: post.data) := by
    intro x
    simp [lbraceStr, rbraceStr]
  have hnorm : normalizePath (pre ++ lbraceStr ++ a ++ rbraceStr ++ post) =
      normalizePath (pre ++ lbraceStr ++ b ++ rbraceStr ++ post) := by
    rw [normalizePath_eq, normalizePath_eq, hdata a, hdata b]
    exact congrArg _
      (normList_indep pre.data.length pre.data a.data b.data post.data
        (Nat.le_refl _) ha1 ha2 hb1 hb2)
  rw [getInstructionType, getInstructionType, hnorm]

/-- Witness for C6 at a concrete verb and path pair: two different
parameter contents resolve identically. -/
theorem getInstructionType_param_indep_spot :
    getInstructionType ("order" ++ lbraceStr ++ "orderId" ++ rbraceStr ++ "")
        "DELETE" =
      getInstructionType ("order" ++ lbraceStr ++ "clientOrderId" ++ rbraceStr ++ "")
        "DELETE" :=
  getInstructionType_param_indep "DELETE" "order" "orderId" "clientOrderId" ""
    (by decide) (by decide) (by decide) (by decide)

/-- C7: `getInstructionType` returns exactly the table entry for the
normalized `verb:path` key when one exists, and otherwise raises a
`NotSupported` error naming the key — never a silent default. -/
theorem getInstructionType_total (path method instruction : String) :
    (getInstructionType path method = Except.ok instruction ↔
      lookupStr instructionTypes (method ++ ":" ++ normalizePath path) =
        some instruction)
    ∧ (lookupStr instructionTypes (method ++ ":" ++ normalizePath path) = none →
      getInstructionType path method = Except.error
        ("backpack " ++ (method ++ ":" ++ normalizePath path) ++
          " is not supported yet")) := by
  constructor
  · exact getInstructionType_ok_iff
  · intro h
    rw [getInstructionType]
    simp only [h]

/-- Witness for C7: a mapped endpoint resolves to its table entry, an
unmapped one raises the `not supported` error. -/
theorem getInstructionType_total_spot :
    getInstructionType "capital" "GET" = Except.ok "balanceQuery" ∧
    getInstructionType "foo" "GET" = Except.error
      ("backpack " ++ ("GET" ++ ":" ++ normalizePath "foo") ++
        " is not supported yet") :=
  ⟨(getInstructionType_total "capital" "GET" "balanceQuery").1.mpr (by decide),
   (getInstructionType_total "foo" "GET" "balanceQuery").2 (by decide)⟩

/-! ## The signature payload theorems -/

theorem encodePairL_ne_nil (p : String × String) : encodePairL p ≠ [] := by
  rw [encodePairL]
  intro h
  have := congrArg List.length h
  simp at this

theorem urlencodeL_ne_nil {l : List (String × String)} (h : l ≠ []) :
    urlencodeL l ≠ [] := by
  rw [urlencodeL]
  cases l with
  | nil => exact absurd rfl h
  | cons x xs =>
    cases xs with
    | nil => exact encodePairL_ne_nil x
    | cons y ys =>
      show encodePairL x ++ '&' :: joinAmpL _ ≠ []
      intro hx
      have := congrArg List.length hx
      simp at this

/-- C2: for every authenticated request whose parameters are a single
object (reads and single-object writes alike, any HTTP method), the
signature payload is `instruction=<resolved-name>`, then `&<params>` with
keys sorted lexicographically and URL-encoded — omitted entirely when no
parameters exist — then `&timestamp=<ms>&window=<ms>`, where the window
is `options.recvWindow` defaulting to 5000 ms. -/
theorem sign_single_payload (path method : String)
    (kvs : List (String × String)) (recvWindow : Option Nat) (ts : Nat)
    (instruction : String)
    (hi : getInstructionType path method = Except.ok instruction) :
    sign path method (.obj kvs) recvWindow ts =
      Except.ok (specSinglePayload instruction kvs ts (recvWindow.getD 5000)) := by
  rw [sign, hi]
  show Except.ok (String.mk _) = Except.ok (specSinglePayload _ _ _ _)
  rw [specSinglePayload]
  refine congrArg Except.ok (congrArg String.mk ?_)
  show (if isArr (.obj kvs) = true then _
    else "instruction=".data ++ instruction.data ++
      (if (if kvs = [] then [] else urlencodeL (keysort kvs)) = [] then []
       else '&' :: (if kvs = [] then [] else urlencodeL (keysort kvs)))) ++
    "&timestamp=".data ++ natDigits ts ++ "&window=".data ++
      natDigits (recvWindow.getD 5000) = _
  rw [if_neg (by rw [isArr]; simp)]
  by_cases hk : kvs = []
  · rw [if_pos hk, if_pos hk, if_pos rfl]
  · have hne : urlencodeL (keysort kvs) ≠ [] :=
      urlencodeL_ne_nil (fun hx => hk (keysort_eq_nil_iff.mp hx))
    rw [if_neg hk, if_neg hk, if_neg hne]

/-- Witness for C2: a concrete `GET` with two (unsorted) parameters. -/
theorem sign_single_payload_spot :
    getInstructionType "orders" "GET" = Except.ok "orderQueryAll" ∧
    sign "orders" "GET" (.obj [("symbol", "SOL_USDC"), ("limit", "5")]) none
        1700000000000 =
      Except.ok (specSinglePayload "orderQueryAll"
        [("symbol", "SOL_USDC"), ("limit", "5")] 1700000000000 5000) :=
  ⟨rfl, sign_single_payload "orders" "GET"
    [("symbol", "SOL_USDC"), ("limit", "5")] none 1700000000000
    "orderQueryAll" rfl⟩

theorem instruction_eq_char_free {path method instruction : String}
    (hi : getInstructionType path method = Except.ok instruction) :
    ('=' : Char) ∉ instruction.data := by
  have hmem := lookupStr_mem (getInstructionType_ok_iff.mp hi)
  have hall : ∀ p ∈ instructionTypes, ('=' : Char) ∉ (Prod.snd p).data := by decide
  exact hall _ hmem

theorem occurs_urlencodeL_eq_zero (l : List (String × String))
    (h : ∀ p ∈ l, ¬ ("instruction".data <:+ percentEncodeL (Prod.fst p).data)) :
    occurs ("instruction".data ++ ['=']) (urlencodeL l) = 0 := by
  induction l with
  | nil => rfl
  | cons x xs ih =>
    have hx := h x (List.mem_cons_self _ _)
    have hxs : ∀ p ∈ xs, ¬ ("instruction".data <:+ percentEncodeL (Prod.fst p).data) :=
      fun p hp => h p (List.mem_cons_of_mem _ hp)
    rw [urlencodeL] at ih ⊢
    cases xs with
    | nil =>
      show occurs _ (encodePairL x) = 0
      rw [occurs_encodePairL _ x (by decide), if_neg hx]
    | cons y ys =>
      show occurs _ (encodePairL x ++ '&' :: joinAmpL ((y :: ys).map encodePairL)) = 0
      rw [occurs_append_cons _ _ (by decide) (by decide),
        occurs_encodePairL _ x (by decide), if_neg hx, ih hxs]

theorem occurs_orderSegmentL (instruction : String) (o : List (String × String))
    (hio : ('=' : Char) ∉ instruction.data)
    (h : ∀ p ∈ o, ¬ ("instruction".data <:+ percentEncodeL (Prod.fst p).data)) :
    occurs ("instruction".data ++ ['=']) (orderSegmentL instruction o) = 1 := by
  rw [orderSegmentL]
  have hshape : "instruction=".data ++ instruction.data ++ '&' :: urlencodeL (keysort o) =
      ("instruction".data ++ '=' :: instruction.data) ++ '&' :: urlencodeL (keysort o) := by
    have hd : "instruction=".data = "instruction".data ++ ['='] := by decide
    rw [hd]
    simp
  rw [hshape, occurs_append_cons _ _ (by decide) (by decide),
    occurs_kv (by decide) (by decide) hio, if_pos (List.suffix_refl _),
    occurs_urlencodeL_eq_zero (keysort o) (fun p hp => h p (mem_keysort.mp hp))]

theorem occurs_batch_segments (instruction : String)
    (objs : List (List (String × String)))
    (hio : ('=' : Char) ∉ instruction.data)
    (h : ∀ o ∈ objs, ∀ p ∈ o,
      ¬ ("instruction".data <:+ percentEncodeL (Prod.fst p).data)) :
    occurs ("instruction".data ++ ['='])
      (joinAmpL (objs.map (orderSegmentL instruction))) = objs.length := by
  induction objs with
  | nil => rfl
  | cons o rest ih =>
    have ho := h o (List.mem_cons_self _ _)
    have hrest : ∀ o2 ∈ rest, ∀ p ∈ o2,
        ¬ ("instruction".data <:+ percentEncodeL (Prod.fst p).data) :=
      fun o2 ho2 => h o2 (List.mem_cons_of_mem _ ho2)
    cases rest with
    | nil =>
      show occurs _ (orderSegmentL instruction o) = 1
      exact occurs_orderSegmentL instruction o hio ho
    | cons o2 rest2 =>
      show occurs _ (orderSegmentL instruction o ++
        '&' :: joinAmpL ((o2 :: rest2).map (orderSegmentL instruction))) = _
      rw [occurs_append_cons _ _ (by decide) (by decide),
        occurs_orderSegmentL instruction o hio ho, ih hrest]
      simp only [List.length_cons]
      omega

/-- The payload suffix regrouped so that each `&`-separated token has the
`key ++ '=' :: value` shape the counting lemmas expect. -/
theorem payload_suffix_shape (qs : List Char) (ts w : Nat) :
    qs ++ "&timestamp=".data ++ natDigits ts ++ "&window=".data ++ natDigits w =
      qs ++ '&' :: (("timestamp".data ++ '=' :: natDigits ts) ++
        '&' :: ("window".data ++ '=' :: natDigits w)) := by
  have h1 : "&timestamp=".data = '&' :: ("timestamp".data ++ ['=']) := by decide
  have h2 : "&window=".data = '&' :: ("window".data ++ ['=']) := by decide
  rw [h1, h2]
  simp

/-- C1 (amended): for every batch write (any non-`GET`, non-`DELETE`
method with a top-level array of parameter objects — detection is purely
structural), the signature payload is exactly one
`instruction=<name>&<sorted-urlencoded-object>` segment per element,
joined with `&`, with no instruction prefix outside the segments,
followed by `&timestamp=<ms>&window=<ms>`; and, provided no element has a
parameter key whose URL-encoding ends with the string `instruction`, the
payload contains exactly N occurrences of `instruction=`. -/
theorem sign_batch_payload (path method : String)
    (objs : List (List (String × String))) (recvWindow : Option Nat) (ts : Nat)
    (instruction : String)
    (hg : method ≠ "GET") (hd : method ≠ "DELETE")
    (hi : getInstructionType path method = Except.ok instruction) :
    sign path method (.arr objs) recvWindow ts =
      Except.ok (specBatchPayload instruction objs ts (recvWindow.getD 5000))
    ∧ ((∀ o ∈ objs, ∀ p ∈ o,
          ¬ ("instruction".data <:+ percentEncodeL (Prod.fst p).data)) →
        countSub "instruction="
          (specBatchPayload instruction objs ts (recvWindow.getD 5000)) =
          objs.length) := by
  constructor
  · rw [sign, hi]
    show (match signaturePayloadL method instruction (.arr objs) ts
        (recvWindow.getD 5000) with
      | none => Except.error SignError.undefinedEncoding
      | some payload => Except.ok (String.mk payload)) = _
    rw [signaturePayloadL, queryStringL, if_neg (by simp [hg, hd])]
    rw [Option.map_some']
    show Except.ok (String.mk _) = _
    rw [specBatchPayload]
    refine congrArg Except.ok (congrArg String.mk ?_)
    have hcond : isArr (QueryShape.arr objs) = true := rfl
    rw [if_pos hcond]
    rfl
  · intro h
    rw [countSub, specBatchPayload]
    show occurs "instruction=".data
      (joinAmpL (objs.map (fun o => "instruction=".data ++ instruction.data ++
          '&' :: urlencodeL (keysort o))) ++
        "&timestamp=".data ++ natDigits ts ++ "&window=".data ++
        natDigits (recvWindow.getD 5000)) = objs.length
    have hseg : (fun o => "instruction=".data ++ instruction.data ++
        '&' :: urlencodeL (keysort o)) = orderSegmentL instruction := rfl
    rw [hseg, payload_suffix_shape]
    have hpat : "instruction=".data = "instruction".data ++ ['='] := by decide
    rw [hpat,
      occurs_append_cons _ _ (by decide) (by decide),
      occurs_append_cons _ _ (by decide) (by decide),
      occurs_kv (by decide) (by decide) (eq_char_not_mem_natDigits ts),
      occurs_kv (by decide) (by decide) (eq_char_not_mem_natDigits (recvWindow.getD 5000)),
      if_neg (by decide), if_neg (by decide),
      occurs_batch_segments instruction objs (instruction_eq_char_free hi) h]
    omega

/-- Witness for C1 (amended) at a concrete two-order batch. -/
theorem sign_batch_payload_spot :
    sign "orders" "POST"
        (.arr [[("symbol", "SOL_USDC"), ("side", "Bid")], [("symbol", "BTC_USDC")]])
        (some 6000) 1700000000000 =
      Except.ok (specBatchPayload "orderExecute"
        [[("symbol", "SOL_USDC"), ("side", "Bid")], [("symbol", "BTC_USDC")]]
        1700000000000 6000) ∧
    countSub "instruction=" (specBatchPayload "orderExecute"
        [[("symbol", "SOL_USDC"), ("side", "Bid")], [("symbol", "BTC_USDC")]]
        1700000000000 6000) = 2 := by
  have h := sign_batch_payload "orders" "POST"
    [[("symbol", "SOL_USDC"), ("side", "Bid")], [("symbol", "BTC_USDC")]]
    (some 6000) 1700000000000 "orderExecute" (by decide) (by decide) rfl
  exact ⟨h.1, h.2 (by decide)⟩

/-- C1 counterexample to the claim as stated: a batch write whose single
element carries a key literally named `instruction` produces a payload
with two `instruction=` occurrences, not one. -/
theorem sign_batch_count_counterexample :
    sign "orders" "POST" (.arr [[("instruction", "x")]]) none 1 =
      Except.ok "instruction=orderExecute&instruction=x&timestamp=1&window=5000"
    ∧ countSub "instruction="
        "instruction=orderExecute&instruction=x&timestamp=1&window=5000" = 2
    ∧ ([[("instruction", "x")]] : List (List (String × String))).length = 1 :=
  ⟨rfl, by decide, rfl⟩

/-! ## WebSocket client (ts/src/pro/backpack.ts)

Market-id resolution (`safeMarket`/`safeSymbol`) consumes the external
market registry (spec §6); it is passed in as an association list
`markets : List (String × String)` from exchange id to unified symbol,
falling back to the raw id.  Decimal price/quantity strings are parsed
exactly into normalized `Dec` values. -/

/-- True for the ASCII decimal digits. -/
def isDigitChar (c : Char) : Bool := decide (48 ≤ c.toNat ∧ c.toNat ≤ 57)

/-- Value of a decimal digit string. -/
def digitsToNat (l : List Char) : Nat :=
  l.foldl (fun a c => a * 10 + (c.toNat - 48)) 0

/-- An exact decimal number: the value `m / 10 ^ e`.  Values built by
`parseDecimal` are normalized (trailing zero digits stripped), so
structural equality coincides with numeric equality — the same behaviour
the JS float comparison has on the exchange's short decimal literals. -/
structure Dec where
  m : Int
  e : Nat
deriving DecidableEq

/-- The decimal zero in normal form. -/
def decZero : Dec := ⟨0, 0⟩

/-- Strip trailing decimal zeros: divide the mantissa by 10 while the
scale is positive and the mantissa is divisible (fuelled by the scale). -/
def stripZerosAux : Nat → Int → Nat → Int × Nat
  | 0, m, e => (m, e)
  | _ + 1, m, 0 => (m, 0)
  | fuel + 1, m, e + 1 =>
    if m % 10 = 0 then stripZerosAux fuel (m / 10) e else (m, e + 1)

/-- Modelled from the spec: exact parsing of the exchange's decimal
price/quantity strings (the base library's `safeNumber`, not under
`src/`) — optional sign, integer digits, optional fractional digits,
normalized. -/
def parseDecimal (s : String) : Option Dec :=
  match s.data with
  | [] => none
  | c :: rest =>
    let ds := if c = '-' then rest else c :: rest
    let neg := c = '-'
    let ip := ds.takeWhile isDigitChar
    let rest2 := ds.dropWhile isDigitChar
    if ip = [] then none
    else
      let build : List Char → Option Dec := fun fp =>
        let mAbs : Nat := digitsToNat (ip ++ fp)
        let m : Int := if neg then -(mAbs : Int) else (mAbs : Int)
        let p := stripZerosAux fp.length m fp.length
        some ⟨p.1, p.2⟩
      match rest2 with
      | [] => build []
      | dot :: fp =>
        if dot = '.' ∧ fp.all isDigitChar then build fp else none

/-- Modelled from the spec (§4.5 steps 1-2, the base library's
`handleDelta`/`OrderBookSide.storeArray` is not under `src/`): a zero
quantity removes the price level if present, any other quantity upserts
it (the side is keyed by price; at most one entry per price). -/
def storeDelta (side : List (Dec × Dec)) (price qty : Dec) : List (Dec × Dec) :=
  if qty = decZero then side.filter (fun e => decide (e.1 ≠ price))
  else side.filter (fun e => decide (e.1 ≠ price)) ++ [(price, qty)]

/-- Quantity stored at a price on a book side. -/
def priceLookup : List (Dec × Dec) → Dec → Option Dec
  | [], _ => none
  | e :: rest, p => if e.1 = p then some e.2 else priceLookup rest p

/-- Fold of `storeDelta` over already-parsed deltas. -/
def handleDeltasQ (side : List (Dec × Dec)) (ds : List (Dec × Dec)) : List (Dec × Dec) :=
  ds.foldl (fun s d => storeDelta s d.1 d.2) side

/-- Parse one raw `[price, quantity]` delta. -/
def parseDelta (d : String × String) : Option (Dec × Dec) :=
  match parseDecimal d.1, parseDecimal d.2 with
  | some p, some q => some (p, q)
  | _, _ => none

/-- ccxt `handleDeltas` over one side's raw delta list (unparseable
entries are skipped). -/
def handleDeltas (side : List (Dec × Dec)) (ds : List (String × String)) :
    List (Dec × Dec) :=
  ds.foldl (fun s d =>
    match parseDelta d with
    | some pq => storeDelta s pq.1 pq.2
    | none => s) side

/-- The `data` object of a `depth.<market>` message
(ts/src/pro/backpack.ts 284-298). -/
structure DepthData where
  s : Option String
  a : List (String × String)
  b : List (String × String)
  U : Option Int
  u : Option Int
  T : Option Nat
deriving DecidableEq

/-- Per-symbol order book state. -/
structure Book where
  symbol : String
  asks : List (Dec × Dec)
  bids : List (Dec × Dec)
  timestamp : Option Nat
  nonce : Option Int
deriving DecidableEq

/-- Unified symbol for an exchange market id (`safeMarket`/`safeSymbol`
against the external market registry, spec §6), falling back to the id. -/
def lookupSymbol (markets : List (String × String)) (marketId : String) :
    String := (lookupStr markets marketId).getD marketId

/-- The empty book created on the first depth message for a symbol
(`this.orderBook ({})` plus the symbol assignment). -/
def emptyBook (symbol : String) : Book := ⟨symbol, [], [], none, none⟩

/-- Insert or replace the entry for a string key, preserving position. -/
def upsertStr {α : Type} : List (String × α) → String → α → List (String × α)
  | [], k, v => [(k, v)]
  | e :: rest, k, v =>
    if e.1 = k then (k, v) :: rest else e :: upsertStr rest k v

/-- Symbol a depth message routes to. -/
def symbolOf (markets : List (String × String)) (d : DepthData) : String :=
  lookupSymbol markets (d.s.getD "")

/-- `handleOrderBook` (ts/src/pro/backpack.ts 283-322) on the
`orderbooks` map: create an empty book for the symbol when absent, apply
the ask and bid delta lists, set `timestamp` from the microsecond `T`
field (`safeIntegerProduct (data, 'T', 0.001)`, modelled from the spec as
exact microsecond-to-millisecond division), set `nonce` to the
last-update-id `u` unconditionally (the first-update-id `U` is read but
unused), and resolve `orderbook:<symbol>`.  The `datetime` field, a
string rendering derived from `timestamp`, is omitted. -/
def handleOrderBook (markets : List (String × String))
    (books : List (String × Book)) (d : DepthData) :
    List (String × Book) × String :=
  let symbol := symbolOf markets d
  let book0 := (lookupStr books symbol).getD (emptyBook symbol)
  let book1 : Book :=
    { book0 with
      asks := handleDeltas book0.asks d.a
      bids := handleDeltas book0.bids d.b
      timestamp := d.T.map (fun t => t / 1000)
      nonce := d.u }
  (upsertStr books symbol book1, "orderbook:" ++ symbol)

/-- One `handleOrderBook` state step. -/
def bookStep (markets : List (String × String)) (books : List (String × Book))
    (d : DepthData) : List (String × Book) :=
  (handleOrderBook markets books d).1

/-- The nonce of a symbol's book after each prefix of a message
sequence (the initial state first). -/
def nonceTrace (markets : List (String × String)) (books : List (String × Book))
    (msgs : List DepthData) (symbol : String) : List (Option Int) :=
  (msgs.scanl (bookStep markets) books).map
    (fun st => (lookupStr st symbol).bind Book.nonce)

theorem lookupStr_upsertStr_self {α : Type} (l : List (String × α)) (k : String)
    (v : α) : lookupStr (upsertStr l k v) k = some v := by
  induction l with
  | nil => simp [upsertStr, lookupStr]
  | cons e rest ih =>
    rw [upsertStr]
    by_cases he : e.1 = k
    · rw [if_pos he, lookupStr, if_pos rfl]
    · rw [if_neg he, lookupStr, if_neg he, ih]

/-! ## Account order updates and message routing -/

/-- The `data` object of an `account.orderUpdate` message, fields as read
by `parseWsOrder` (ts/src/pro/backpack.ts 364-404); absent fields are
`none`. -/
structure OrderData where
  e : Option String
  E : Option Nat
  s : Option String
  c : Option String
  S : Option String
  o : Option String
  f : Option String
  q : Option String
  p : Option String
  X : Option String
  i : Option String
  z : Option String
  n : Option String
  N : Option String
  T : Option Nat
deriving DecidableEq

/-- The `parseOrderStatus` table (ts/src/backpack.ts 1353-1364). -/
def orderStatuses : List (String × String) :=
  [ ("New", "open"), ("PartiallyFilled", "open"), ("Filled", "closed")
  , ("Cancelled", "canceled"), ("PendingCancel", "canceling")
  , ("Rejected", "rejected"), ("Expired", "expired") ]

/-- `parseOrderStatus`: map through the table, keeping the raw value (or
`undefined`) when unmapped. -/
def parseOrderStatus (status : Option String) : Option String :=
  status.map (fun st => (lookupStr orderStatuses st).getD st)

/-- ASCII lower-casing of one character (JS `toLowerCase` on the ASCII
data the exchange sends). -/
def lowerChar (c : Char) : Char :=
  if 65 ≤ c.toNat ∧ c.toNat ≤ 90 then Char.ofNat (c.toNat + 32) else c

/-- ASCII lower-casing of a string (`safeStringLower`). -/
def toLowerStr (s : String) : String := ⟨s.data.map lowerChar⟩

/-- The normalized order produced by `parseWsOrder` (field mapping per
ts/src/pro/backpack.ts 405-423; `remaining` and the never-assigned `fee`
are always absent and omitted). -/
structure ParsedOrder where
  id : Option String
  clientOrderId : Option String
  timestamp : Option Nat
  lastTradeTimestamp : Option Nat
  status : Option String
  symbol : String
  type : Option String
  timeInForce : Option String
  side : String
  price : Option String
  amount : Option String
  filled : Option String
deriving DecidableEq

/-- `parseWsOrder` (ts/src/pro/backpack.ts 364-423).  Lines 400-404
declare `const fee = undefined` and then assign `fee['cost']` whenever
both fee fields `n` and `N` are present: in JS that assignment throws a
`TypeError`, so the parse raises instead of returning. -/
def parseWsOrder (markets : List (String × String)) (order : OrderData) :
    Except String ParsedOrder :=
  if order.n ≠ none ∧ order.N ≠ none then
    Except.error "TypeError: cannot set properties of undefined"
  else
    Except.ok
      { id := order.i
        clientOrderId := order.c
        timestamp := order.E.map (fun t => t / 1000)
        lastTradeTimestamp := order.T.map (fun t => t / 1000)
        status := parseOrderStatus order.X
        symbol := lookupSymbol markets (order.s.getD "")
        type := order.o.map toLowerStr
        timeInForce := order.f
        side := if order.S = some "Bid" then "buy" else "sell"
        price := order.p
        amount := order.q
        filled := order.z }

/-- The `data` object of an `account.positionUpdate` message (only the
fields the position cache is keyed by; the remaining field mapping is
data shaping the spec scopes out, §1). -/
structure PositionData where
  s : Option String
  i : Option String
  E : Option Nat
deriving DecidableEq

/-- Normalized position (identity and timing fields only, see
`PositionData`). -/
structure ParsedPosition where
  symbol : String
  id : Option String
  timestamp : Option Nat
deriving DecidableEq

/-- `parseWsPosition`, restricted to the identity fields. -/
def parseWsPosition (markets : List (String × String)) (p : PositionData) :
    ParsedPosition :=
  ⟨lookupSymbol markets (p.s.getD ""), p.i, p.E.map (fun t => t / 1000)⟩

/-- Ticker payload (identification field only; parsing out of scope). -/
structure TickerData where
  s : Option String
deriving DecidableEq

/-- Trade payload (identification field only; parsing out of scope). -/
structure TradeData where
  s : Option String
deriving DecidableEq

/-- Kline payload (identification field only; parsing out of scope). -/
structure KlineData where
  s : Option String
deriving DecidableEq

/-- Runtime shape of an inbound message's `data` value. -/
inductive WsData where
  | depth (d : DepthData)
  | order (o : OrderData)
  | position (p : PositionData)
  | ticker (t : TickerData)
  | trade (t : TradeData)
  | kline (k : KlineData)
  | emptyData
deriving DecidableEq

/-- Inbound envelope `{"stream": …, "data": …}` (spec §6). -/
structure Envelope where
  stream : Option String
  data : WsData
deriving DecidableEq

/-- An all-absent order payload (reading order fields off a value of a
different shape yields `undefined` everywhere). -/
def OrderData.empty : OrderData :=
  ⟨none, none, none, none, none, none, none, none, none, none, none, none,
    none, none, none⟩

/-- An all-absent depth payload. -/
def DepthData.empty : DepthData := ⟨none, [], [], none, none, none⟩

/-- Read the envelope data as an order payload. -/
def asOrder : WsData → OrderData
  | .order o => o
  | _ => OrderData.empty

/-- Read the envelope data as a depth payload. -/
def asDepth : WsData → DepthData
  | .depth d => d
  | _ => DepthData.empty

/-- Read the envelope data as a position payload. -/
def asPosition : WsData → PositionData
  | .position p => p
  | _ => ⟨none, none, none⟩

/-- Read the envelope data as a ticker payload. -/
def asTicker : WsData → TickerData
  | .ticker t => t
  | _ => ⟨none⟩

/-- Read the envelope data as a trade payload. -/
def asTrade : WsData → TradeData
  | .trade t => t
  | _ => ⟨none⟩

/-- Read the envelope data as a kline payload. -/
def asKline : WsData → KlineData
  | .kline k => k
  | _ => ⟨none⟩

/-- Client-side stream state: the per-channel caches and books mutated by
the handlers. -/
structure WsState where
  tickers : List (String × TickerData)
  trades : List (String × List TradeData)
  ohlcvs : List (String × List (String × List KlineData))
  orderbooks : List (String × Book)
  orders : Option (List ParsedOrder)
  positions : Option (List ParsedPosition)
deriving DecidableEq

/-- The state before any message. -/
def initialWsState : WsState := ⟨[], [], [], [], none, none⟩

/-- Modelled from the spec (§4.6, `ArrayCache` is not under `src/`):
bounded insertion-ordered append, evicting the oldest beyond the bound. -/
def boundedAppend {α : Type} (limit : Nat) (l : List α) (x : α) : List α :=
  let l2 := l ++ [x]
  if limit < l2.length then l2.drop (l2.length - limit) else l2

/-- Modelled from the spec (§4.6, `ArrayCacheBySymbolById` is not under
`src/`): replace the entry with the same symbol and id in place,
preserving its position, else append (bounded). -/
def cacheUpsertOrder (limit : Nat) (cache : List ParsedOrder)
    (o : ParsedOrder) : List ParsedOrder :=
  if cache.any (fun e => decide (e.symbol = o.symbol ∧ e.id = o.id)) then
    cache.map (fun e => if e.symbol = o.symbol ∧ e.id = o.id then o else e)
  else boundedAppend limit cache o

/-- Modelled from the spec (§4.6): the position cache's upsert
(constructed without a bound in the source). -/
def cacheUpsertPosition (cache : List ParsedPosition) (p : ParsedPosition) :
    List ParsedPosition :=
  if cache.any (fun e => decide (e.symbol = p.symbol ∧ e.id = p.id)) then
    cache.map (fun e => if e.symbol = p.symbol ∧ e.id = p.id then p else e)
  else cache ++ [p]

/-- `handleTicker` (ts/src/pro/backpack.ts 220-249): store the ticker
under its symbol and resolve `ticker:<symbol>` (the ticker field mapping
itself is data shaping the spec scopes out, §1). -/
def handleTicker (markets : List (String × String)) (st : WsState)
    (msg : Envelope) : Except String (WsState × List String) :=
  let d := asTicker msg.data
  let symbol := lookupSymbol markets (d.s.getD "")
  Except.ok ({ st with tickers := upsertStr st.tickers symbol d },
    ["ticker:" ++ symbol])

/-- `handleTrade` (ts/src/pro/backpack.ts 251-281): append to the
symbol's bounded trade cache (`tradesLimit` default 1000) and resolve
`trades:<symbol>`. -/
def handleTrade (markets : List (String × String)) (st : WsState)
    (msg : Envelope) : Except String (WsState × List String) :=
  let d := asTrade msg.data
  let symbol := lookupSymbol markets (d.s.getD "")
  let stored := (lookupStr st.trades symbol).getD []
  Except.ok
    ({ st with trades := upsertStr st.trades symbol (boundedAppend 1000 stored d) },
      ["trades:" ++ symbol])

/-- The dot-delimited segment at index 1 of a stream name, when any
(`safeString (parts, 1)`). -/
def segment1 (s : String) : Option String :=
  match s.data.dropWhile (fun c => decide (c ≠ '.')) with
  | [] => none
  | _ :: tail => some ⟨tail.takeWhile (fun c => decide (c ≠ '.'))⟩

/-- `handleOHLCV` (ts/src/pro/backpack.ts 324-362): append to the
symbol-and-interval kline cache (`OHLCVLimit` default 1000) and resolve
`ohlcv:<symbol>:<interval>`; a missing interval segment concatenates as
the JS string `undefined`. -/
def handleOHLCV (markets : List (String × String)) (st : WsState)
    (msg : Envelope) : Except String (WsState × List String) :=
  let d := asKline msg.data
  let symbol := lookupSymbol markets (d.s.getD "")
  let interval := (segment1 (msg.stream.getD "")).getD "undefined"
  let bySymbol := (lookupStr st.ohlcvs symbol).getD []
  let stored := (lookupStr bySymbol interval).getD []
  let updated := upsertStr st.ohlcvs symbol
    (upsertStr bySymbol interval (boundedAppend 1000 stored d))
  Except.ok ({ st with ohlcvs := updated },
    ["ohlcv:" ++ symbol ++ ":" ++ interval])

/-- `handleOrderUpdate` (ts/src/pro/backpack.ts 425-461): parse the
order (propagating the parse `TypeError`), create the shared order cache
on first use (`ordersLimit` default 1000), append the parsed order, and
resolve first the unscoped `orders` key, then the scoped
`orders:<symbol>` key. -/
def handleOrderUpdate (markets : List (String × String)) (st : WsState)
    (msg : Envelope) : Except String (WsState × List String) :=
  let d := asOrder msg.data
  match parseWsOrder markets d with
  | .error err => .error err
  | .ok parsed =>
    let cache0 := st.orders.getD []
    .ok ({ st with orders := some (cacheUpsertOrder 1000 cache0 parsed) },
      ["orders", "orders:" ++ parsed.symbol])

/-- `handlePositionUpdate` (ts/src/pro/backpack.ts 529-564): upsert into
the position cache and resolve `positions`. -/
def handlePositionUpdate (markets : List (String × String)) (st : WsState)
    (msg : Envelope) : Except String (WsState × List String) :=
  let parsed := parseWsPosition markets (asPosition msg.data)
  let cache0 := st.positions.getD []
  .ok ({ st with positions := some (cacheUpsertPosition cache0 parsed) },
    ["positions"])

/-- Whether `pat` occurs as a contiguous substring
(JS `indexOf (pat) >= 0`). -/
def hasSubstr (pat : List Char) : List Char → Bool
  | [] => pat.isEmpty
  | c :: rest => pat.isPrefixOf (c :: rest) || hasSubstr pat rest

/-- `handleAccountData` (ts/src/pro/backpack.ts 589-596): second-level
dispatch on the presence of `orderUpdate` / `positionUpdate` in the
stream name; anything else is dropped. -/
def handleAccountData (markets : List (String × String)) (st : WsState)
    (msg : Envelope) : Except String (WsState × List String) :=
  let stream := msg.stream.getD ""
  if hasSubstr "orderUpdate".data stream.data then
    handleOrderUpdate markets st msg
  else if hasSubstr "positionUpdate".data stream.data then
    handlePositionUpdate markets st msg
  else Except.ok (st, [])

/-- First dot-delimited segment of a stream name
(`stream.split ('.')` then `safeString (parts, 0)`). -/
def firstSegment (s : String) : String :=
  ⟨s.data.takeWhile (fun c => decide (c ≠ '.'))⟩

/-- The `depth` arm of `handleMessage`, lifted to the stream state. -/
def handleOrderBookWs (markets : List (String × String)) (st : WsState)
    (msg : Envelope) : Except String (WsState × List String) :=
  let r := handleOrderBook markets st.orderbooks (asDepth msg.data)
  Except.ok ({ st with orderbooks := r.1 }, [r.2])

/-- `handleMessage` (ts/src/pro/backpack.ts 566-587): route on the first
dot-delimited segment of the stream name through the handler table;
unknown channels are dropped without touching any state.  An exception
thrown by a handler (the `parseWsOrder` fee slip) propagates. -/
def handleMessage (markets : List (String × String)) (st : WsState)
    (msg : Envelope) : Except String (WsState × List String) :=
  let channel := firstSegment (msg.stream.getD "")
  if channel = "ticker" then handleTicker markets st msg
  else if channel = "trades" then handleTrade markets st msg
  else if channel = "depth" then handleOrderBookWs markets st msg
  else if channel = "kline" then handleOHLCV markets st msg
  else if channel = "account" then handleAccountData markets st msg
  else Except.ok (st, [])

/-- Outbound subscribe request (spec §6). -/
structure WsRequest where
  method : String
  params : List String
  signature : Option (List String)
deriving DecidableEq

/-- `signWebSocketMessage` (ts/src/pro/backpack.ts 598-606): build the
fixed-instruction payload `instruction=subscribe&timestamp=<ms>&window=
<ms>` (window from `options.recvWindow`, default 5000), sign it (the
ED25519-and-base64 `signMessage` from spec §4.1 steps 5-6 is abstracted
as `sigFn`), and set the request's `signature` field to the
`[apiKey, signature, timestamp, window]` tuple.  The `params` argument
is accepted and never read. -/
def signWebSocketMessage (sigFn : String → String) (apiKey : String)
    (recvWindow : Option Nat) (ts : Nat) (request : WsRequest)
    (params : List (String × String)) : WsRequest :=
  let window := recvWindow.getD 5000
  let message := "instruction=subscribe&timestamp=" ++ natToString ts ++
    "&window=" ++ natToString window
  { request with
    signature := some [apiKey, sigFn message, natToString ts, natToString window] }

/-! ## Order-book merge properties -/

theorem priceLookup_filter_ne (side : List (Dec × Dec)) (p : Dec) :
    priceLookup (side.filter (fun e => decide (e.1 ≠ p))) p = none := by
  induction side with
  | nil => rfl
  | cons e rest ih =>
    by_cases he : e.1 = p
    · rw [List.filter_cons, if_neg (by simp [he])]
      exact ih
    · rw [List.filter_cons, if_pos (by simp [he]), priceLookup, if_neg he]
      exact ih

theorem priceLookup_filter_other (side : List (Dec × Dec)) {p r : Dec} (h : r ≠ p) :
    priceLookup (side.filter (fun e => decide (e.1 ≠ p))) r =
      priceLookup side r := by
  induction side with
  | nil => rfl
  | cons e rest ih =>
    by_cases he : e.1 = p
    · rw [List.filter_cons, if_neg (by simp [he]), priceLookup,
        if_neg (fun hx => h (by rw [← hx]; exact he)), ih]
    · rw [List.filter_cons, if_pos (by simp [he]), priceLookup, priceLookup]
      by_cases her : e.1 = r
      · rw [if_pos her, if_pos her]
      · rw [if_neg her, if_neg her, ih]

theorem priceLookup_append (l1 l2 : List (Dec × Dec)) (r : Dec) :
    priceLookup (l1 ++ l2) r =
      match priceLookup l1 r with
      | some v => some v
      | none => priceLookup l2 r := by
  induction l1 with
  | nil => rfl
  | cons e rest ih =>
    rw [List.cons_append, priceLookup, priceLookup]
    by_cases he : e.1 = r
    · rw [if_pos he, if_pos he]
    · rw [if_neg he, if_neg he, ih]

theorem priceLookup_storeDelta_self (side : List (Dec × Dec)) (p q : Dec) :
    priceLookup (storeDelta side p q) p = if q = decZero then none else some q := by
  rw [storeDelta]
  by_cases hq : q = decZero
  · rw [if_pos hq, if_pos hq, priceLookup_filter_ne]
  · rw [if_neg hq, if_neg hq, priceLookup_append, priceLookup_filter_ne]
    rw [priceLookup, if_pos rfl]

theorem priceLookup_storeDelta_other (side : List (Dec × Dec)) {p q r : Dec}
    (h : r ≠ p) :
    priceLookup (storeDelta side p q) r = priceLookup side r := by
  rw [storeDelta]
  by_cases hq : q = decZero
  · rw [if_pos hq, priceLookup_filter_other side h]
  · rw [if_neg hq, priceLookup_append, priceLookup_filter_other side h]
    rw [priceLookup, if_neg (fun hx => h hx.symm)]
    cases priceLookup side r <;> rfl

/-- Quantity of the last delta listed for a price in a parsed delta
list, when any. -/
def lastQty (p : Dec) : List (Dec × Dec) → Option Dec
  | [] => none
  | d :: rest =>
    match lastQty p rest with
    | some q => some q
    | none => if d.1 = p then some d.2 else none

theorem lastQty_eq_none {p : Dec} {ds : List (Dec × Dec)}
    (h : lastQty p ds = none) : ∀ d ∈ ds, d.1 ≠ p := by
  induction ds with
  | nil => intro d hd; exact absurd hd (List.not_mem_nil _)
  | cons d rest ih =>
    rw [lastQty] at h
    intro x hx
    cases hr : lastQty p rest with
    | some q => rw [hr] at h; exact absurd h (by simp)
    | none =>
      rw [hr] at h
      rcases List.mem_cons.mp hx with hx | hx
      · subst hx
        intro hdp
        rw [if_pos hdp] at h
        exact absurd h (by simp)
      · exact ih hr x hx

theorem priceLookup_handleDeltasQ_not_mem (side : List (Dec × Dec))
    {ds : List (Dec × Dec)} {p : Dec} (h : ∀ d ∈ ds, d.1 ≠ p) :
    priceLookup (handleDeltasQ side ds) p = priceLookup side p := by
  induction ds generalizing side with
  | nil => rfl
  | cons d rest ih =>
    rw [handleDeltasQ, List.foldl_cons]
    have h1 : priceLookup (handleDeltasQ (storeDelta side d.1 d.2) rest) p =
        priceLookup (storeDelta side d.1 d.2) p :=
      ih _ (fun x hx => h x (List.mem_cons_of_mem _ hx))
    rw [show List.foldl (fun s e => storeDelta s e.1 e.2)
        (storeDelta side d.1 d.2) rest =
      handleDeltasQ (storeDelta side d.1 d.2) rest from rfl, h1]
    exact priceLookup_storeDelta_other side
      (fun hx => h d (List.mem_cons_self _ _) hx.symm)

theorem priceLookup_handleDeltasQ (side : List (Dec × Dec))
    (ds : List (Dec × Dec)) (p q : Dec) (h : lastQty p ds = some q) :
    priceLookup (handleDeltasQ side ds) p = if q = decZero then none else some q := by
  induction ds generalizing side with
  | nil => exact absurd h (by simp [lastQty])
  | cons d rest ih =>
    rw [handleDeltasQ, List.foldl_cons,
      show List.foldl (fun s e => storeDelta s e.1 e.2)
        (storeDelta side d.1 d.2) rest =
      handleDeltasQ (storeDelta side d.1 d.2) rest from rfl]
    rw [lastQty] at h
    cases hr : lastQty p rest with
    | some q2 =>
      rw [hr] at h
      simp only [Option.some.injEq] at h
      subst h
      exact ih _ hr
    | none =>
      rw [hr] at h
      by_cases hd : d.1 = p
      · rw [if_pos hd, Option.some.injEq] at h
        rw [priceLookup_handleDeltasQ_not_mem _ (lastQty_eq_none hr), hd, h,
          priceLookup_storeDelta_self]
      · rw [if_neg hd] at h
        exact absurd h (by simp)

/-- Raw `handleDeltas` agrees with the parsed-level fold, skipping
unparseable entries. -/
theorem handleDeltas_eq (side : List (Dec × Dec)) (ds : List (String × String)) :
    handleDeltas side ds = handleDeltasQ side (ds.filterMap parseDelta) := by
  induction ds generalizing side with
  | nil => rfl
  | cons d rest ih =>
    rw [handleDeltas, List.foldl_cons, List.filterMap_cons]
    cases hp : parseDelta d with
    | none => exact ih side
    | some pq => exact ih (storeDelta side pq.1 pq.2)

theorem priceLookup_eq_none {side : List (Dec × Dec)} {p : Dec}
    (h : priceLookup side p = none) : ∀ e ∈ side, e.1 ≠ p := by
  induction side with
  | nil => intro e he; exact absurd he (List.not_mem_nil _)
  | cons d rest ih =>
    rw [priceLookup] at h
    by_cases hd : d.1 = p
    · rw [if_pos hd] at h
      exact absurd h (by simp)
    · rw [if_neg hd] at h
      intro e he
      rcases List.mem_cons.mp he with he | he
      · subst he; exact hd
      · exact ih h e he

/-- C3: order-book merge semantics of `handleOrderBook`'s delta
application.  (1) For every side and every raw delta list, a price whose
final parsed quantity is zero is absent afterwards, and a price whose
final parsed quantity is nonzero maps to exactly that quantity
(last-applied wins); (2) removing an already-absent price is a no-op;
(3) replaying the same zero-quantity delta is idempotent; (4) the depth
update `a = [["18.70", "0.000"]]`, `b = [["18.67", "0.832"]]` applied to
an empty book leaves no `18.70` ask and stores `18.67 ↦ 0.832` as a bid. -/
theorem handleOrderBook_merge :
    (∀ (side : List (Dec × Dec)) (ds : List (String × String)) (p q : Dec),
      lastQty p (ds.filterMap parseDelta) = some q →
      priceLookup (handleDeltas side ds) p = if q = decZero then none else some q)
    ∧ (∀ (side : List (Dec × Dec)) (p : Dec),
        priceLookup side p = none → storeDelta side p decZero = side)
    ∧ (∀ (side : List (Dec × Dec)) (p : Dec),
        storeDelta (storeDelta side p decZero) p decZero = storeDelta side p decZero)
    ∧ (priceLookup ((lookupStr (handleOrderBook [("SOL_USDC", "SOL/USDC")] []
          ⟨some "SOL_USDC", [("18.70", "0.000")], [("18.67", "0.832")],
            some 94978271, some 94978271, some 1694687965940999⟩).1
          "SOL/USDC").getD (emptyBook "SOL/USDC")).asks ⟨187, 1⟩ = none
      ∧ priceLookup ((lookupStr (handleOrderBook [("SOL_USDC", "SOL/USDC")] []
          ⟨some "SOL_USDC", [("18.70", "0.000")], [("18.67", "0.832")],
            some 94978271, some 94978271, some 1694687965940999⟩).1
          "SOL/USDC").getD (emptyBook "SOL/USDC")).bids ⟨1867, 2⟩ =
        some ⟨832, 3⟩) := by
  have hnoop : ∀ (side : List (Dec × Dec)) (p : Dec),
      priceLookup side p = none → storeDelta side p decZero = side := by
    intro side p h
    rw [storeDelta, if_pos rfl]
    refine List.filter_eq_self.mpr ?_
    intro e he
    simpa using priceLookup_eq_none h e he
  refine ⟨?_, hnoop, ?_, by decide, by decide⟩
  · intro side ds p q h
    rw [handleDeltas_eq]
    exact priceLookup_handleDeltasQ side _ p q h
  · intro side p
    refine hnoop _ p ?_
    have := priceLookup_storeDelta_self side p decZero
    rw [if_pos rfl] at this
    exact this

/-- Witness for C3 at concrete inputs: two deltas on one price keep only
the last quantity. -/
theorem handleOrderBook_merge_spot :
    priceLookup (handleDeltas [] [("5.0", "1.5"), ("5.0", "2.5")]) ⟨5, 0⟩ =
      (if (⟨25, 1⟩ : Dec) = decZero then none else some (⟨25, 1⟩ : Dec)) :=
  handleOrderBook_merge.1 [] [("5.0", "1.5"), ("5.0", "2.5")] ⟨5, 0⟩ ⟨25, 1⟩
    (by decide)

/-! ## Nonce behaviour (C4) -/

theorem nonceTrace_cons (markets : List (String × String))
    (books : List (String × Book)) (m : DepthData) (ms : List DepthData)
    (symbol : String) :
    nonceTrace markets books (m :: ms) symbol =
      ((lookupStr books symbol).bind Book.nonce) ::
        nonceTrace markets (bookStep markets books m) ms symbol := by
  rw [nonceTrace, nonceTrace, List.scanl_cons, List.singleton_append, List.map_cons]

theorem nonce_after_step (markets : List (String × String))
    (books : List (String × Book)) (m : DepthData) (symbol : String)
    (h : symbolOf markets m = symbol) :
    (lookupStr (bookStep markets books m) symbol).bind Book.nonce = m.u := by
  subst h
  simp only [bookStep, handleOrderBook]
  rw [lookupStr_upsertStr_self]
  rfl

theorem nonceTrace_eq (markets : List (String × String)) (msgs : List DepthData) :
    ∀ (books : List (String × Book)) (symbol : String),
    (∀ m ∈ msgs, symbolOf markets m = symbol) →
    nonceTrace markets books msgs symbol =
      ((lookupStr books symbol).bind Book.nonce) :: msgs.map DepthData.u := by
  induction msgs with
  | nil => intro books symbol _; rfl
  | cons m ms ih =>
    intro books symbol hall
    rw [nonceTrace_cons,
      ih (bookStep markets books m) symbol
        (fun x hx => hall x (List.mem_cons_of_mem _ hx)),
      nonce_after_step markets books m symbol (hall m (List.mem_cons_self _ _)),
      List.map_cons]

/-- Pointwise order on optional nonces: comparable only when both are
present. -/
def optionLE (x y : Option Int) : Prop := ∀ a ∈ x, ∀ b ∈ y, a ≤ b

/-- C4 (amended): `handleOrderBook` sets the nonce of a symbol's book to
each message's last-update-id, unconditionally; starting from a state
with no book for the symbol, the nonce trace is therefore exactly the
message `u` sequence, and it is monotonically non-decreasing **provided**
the incoming last-update-ids are non-decreasing — the code performs no
ordering check of its own. -/
theorem handleOrderBook_nonce (markets : List (String × String))
    (books : List (String × Book)) (msgs : List DepthData) (symbol : String)
    (us : List Int)
    (hall : ∀ m ∈ msgs, symbolOf markets m = symbol)
    (hfresh : lookupStr books symbol = none)
    (hus : msgs.map DepthData.u = us.map some)
    (hchain : List.Chain' (· ≤ ·) us) :
    nonceTrace markets books msgs symbol = none :: msgs.map DepthData.u
    ∧ List.Chain' optionLE (nonceTrace markets books msgs symbol) := by
  have h1 := nonceTrace_eq markets msgs books symbol hall
  rw [hfresh] at h1
  have h2 : nonceTrace markets books msgs symbol =
      none :: msgs.map DepthData.u := h1
  refine ⟨h2, ?_⟩
  rw [h2, hus]
  cases us with
  | nil => simp
  | cons u0 us2 =>
    rw [List.map_cons]
    refine List.Chain'.cons ?_ ?_
    · intro a ha
      exact absurd ha (by simp)
    · rw [← List.map_cons]
      refine (List.chain'_map _).mpr ?_
      refine hchain.imp ?_
      intro a b hab x hx y hy
      simp only [Option.mem_def, Option.some.injEq] at hx hy
      subst hx
      subst hy
      exact hab

/-- Witness for C4 (amended) on a concrete increasing two-message run. -/
theorem handleOrderBook_nonce_spot :
    nonceTrace [("SOL_USDC", "SOL/USDC")] []
        [⟨some "SOL_USDC", [], [], none, some 5, none⟩,
         ⟨some "SOL_USDC", [], [], none, some 7, none⟩] "SOL/USDC" =
      none :: [⟨some "SOL_USDC", [], [], none, some 5, none⟩,
        (⟨some "SOL_USDC", [], [], none, some 7, none⟩ : DepthData)].map
          DepthData.u
    ∧ List.Chain' optionLE
        (nonceTrace [("SOL_USDC", "SOL/USDC")] []
          [⟨some "SOL_USDC", [], [], none, some 5, none⟩,
           ⟨some "SOL_USDC", [], [], none, some 7, none⟩] "SOL/USDC") :=
  handleOrderBook_nonce [("SOL_USDC", "SOL/USDC")] []
    [⟨some "SOL_USDC", [], [], none, some 5, none⟩,
     ⟨some "SOL_USDC", [], [], none, some 7, none⟩] "SOL/USDC" [5, 7]
    (by decide) rfl rfl
    (List.chain'_cons.mpr ⟨by omega, List.chain'_singleton 7⟩)

/-- C4 counterexample to the claim as stated: two messages whose
last-update-ids decrease move the nonce backwards (5 then 3) — nothing
in `handleOrderBook` prevents it. -/
theorem handleOrderBook_nonce_counterexample :
    nonceTrace [("SOL_USDC", "SOL/USDC")] []
        [⟨some "SOL_USDC", [], [], none, some 5, none⟩,
         ⟨some "SOL_USDC", [], [], none, some 3, none⟩] "SOL/USDC" =
      [none, some 5, some 3]
    ∧ ¬ List.Chain' optionLE [(none : Option Int), some 5, some 3] := by
  refine ⟨by decide, ?_⟩
  intro h
  have h2 := (List.chain'_cons.mp (List.chain'_cons.mp h).2).1
  have h3 := h2 5 rfl 3 rfl
  omega

/-- C5: the microsecond trade-time field `T` of a depth message is
exposed as the book's millisecond timestamp; in particular
`T = 1694687965940999` yields exactly `1694687965940`. -/
theorem handleOrderBook_timestamp (markets : List (String × String))
    (books : List (String × Book)) (d : DepthData) :
    ((lookupStr (handleOrderBook markets books d).1 (symbolOf markets d)).getD
        (emptyBook "")).timestamp = d.T.map (fun t => t / 1000)
    ∧ (d.T = some 1694687965940999 →
      ((lookupStr (handleOrderBook markets books d).1 (symbolOf markets d)).getD
        (emptyBook "")).timestamp = some 1694687965940) := by
  have h1 : ((lookupStr (handleOrderBook markets books d).1
      (symbolOf markets d)).getD (emptyBook "")).timestamp =
      d.T.map (fun t => t / 1000) := by
    simp only [handleOrderBook]
    rw [lookupStr_upsertStr_self]
    rfl
  refine ⟨h1, fun hT => ?_⟩
  rw [h1, hT]
  rfl

/-- Witness for C5 at the documented microsecond timestamp. -/
theorem handleOrderBook_timestamp_spot :
    ((lookupStr (handleOrderBook [("SOL_USDC", "SOL/USDC")] []
        ⟨some "SOL_USDC", [], [], none, none, some 1694687965940999⟩).1
      (symbolOf [("SOL_USDC", "SOL/USDC")]
        ⟨some "SOL_USDC", [], [], none, none, some 1694687965940999⟩)).getD
      (emptyBook "")).timestamp = some 1694687965940 :=
  (handleOrderBook_timestamp [("SOL_USDC", "SOL/USDC")] []
    ⟨some "SOL_USDC", [], [], none, none, some 1694687965940999⟩).2 rfl

/-! ## Order-update fan-out (C8) and stream safety (C9) -/

/-- C8 (amended): for every account order-update message whose payload
parses (the fee-field slip in `parseWsOrder` raises otherwise),
`handleOrderUpdate` upserts the parsed order into the shared cache and
resolves both the unscoped `orders` key and the scoped
`orders:<symbol>` key from that single message. -/
theorem handleOrderUpdate_resolves (markets : List (String × String))
    (st : WsState) (msg : Envelope) (parsed : ParsedOrder)
    (hp : parseWsOrder markets (asOrder msg.data) = Except.ok parsed) :
    handleOrderUpdate markets st msg = Except.ok
      ({ st with orders := some (cacheUpsertOrder 1000 (st.orders.getD []) parsed) },
        ["orders", "orders:" ++ parsed.symbol])
    ∧ "orders" ∈ ["orders", "orders:" ++ parsed.symbol]
    ∧ ("orders:" ++ parsed.symbol) ∈ ["orders", "orders:" ++ parsed.symbol] := by
  refine ⟨?_, by simp, by simp⟩
  rw [handleOrderUpdate]
  simp only [hp]

/-- Witness for C8 (amended): a concrete fee-free order update resolves
both keys and stores the parsed order. -/
theorem handleOrderUpdate_resolves_spot :
    handleOrderUpdate [("SOL_USDC", "SOL/USDC")] initialWsState
        ⟨some "account.orderUpdate", WsData.order
          ⟨some "orderAccepted", some 1694687692980000, some "SOL_USDC",
            some "123", some "Bid", some "LIMIT", some "GTC", some "32123",
            some "20", some "Filled", some "1111343026172067", some "321",
            none, none, some 1694687692989999⟩⟩ = Except.ok
      ({ initialWsState with orders := some (cacheUpsertOrder 1000
          (initialWsState.orders.getD [])
          ⟨some "1111343026172067", some "123", some 1694687692980,
            some 1694687692989, some "closed", "SOL/USDC", some "limit",
            some "GTC", "buy", some "20", some "32123", some "321"⟩) },
        ["orders", "orders:" ++ ("SOL/USDC" : String)])
    ∧ "orders" ∈ ["orders", "orders:" ++ ("SOL/USDC" : String)]
    ∧ ("orders:" ++ ("SOL/USDC" : String)) ∈
        ["orders", "orders:" ++ ("SOL/USDC" : String)] :=
  handleOrderUpdate_resolves [("SOL_USDC", "SOL/USDC")] initialWsState
    ⟨some "account.orderUpdate", WsData.order
      ⟨some "orderAccepted", some 1694687692980000, some "SOL_USDC",
        some "123", some "Bid", some "LIMIT", some "GTC", some "32123",
        some "20", some "Filled", some "1111343026172067", some "321",
        none, none, some 1694687692989999⟩⟩
    ⟨some "1111343026172067", some "123", some 1694687692980,
      some 1694687692989, some "closed", "SOL/USDC", some "limit",
      some "GTC", "buy", some "20", some "32123", some "321"⟩ rfl

/-- The sample `account.orderUpdate` payload documented in the source's
own comment (ts/src/pro/backpack.ts 366-385): both fee fields `n` and
`N` are present. -/
def sampleOrderData : OrderData :=
  ⟨some "orderAccepted", some 1694687692980000, some "SOL_USD", some "123",
    some "Bid", some "LIMIT", some "GTC", some "32123", some "20",
    some "Filled", some "1111343026172067", some "321", some "23",
    some "USD", some 1694687692989999⟩

/-- C8 counterexample to the claim as stated: on the source's own
documented sample message (fee fields present) `handleOrderUpdate`
raises instead of appending and resolving. -/
theorem handleOrderUpdate_fee_counterexample :
    handleOrderUpdate [("SOL_USD", "SOL/USD")] initialWsState
      ⟨some "account.orderUpdate", WsData.order sampleOrderData⟩ =
      Except.error "TypeError: cannot set properties of undefined" := rfl

/-- C9 evaluated at the failing input: routing the source's own
documented order-update sample through `handleMessage` propagates the
`parseWsOrder` TypeError out of the dispatcher — one message crashes the
stream — while an unknown channel is indeed dropped without error and
without touching any state. -/
theorem handleMessage_crash_on_documented_order :
    handleMessage [("SOL_USD", "SOL/USD")] initialWsState
      ⟨some "account.orderUpdate", WsData.order sampleOrderData⟩ =
      Except.error "TypeError: cannot set properties of undefined"
    ∧ handleMessage [("SOL_USD", "SOL/USD")] initialWsState
      ⟨some "newFancyChannel.SOL_USD", WsData.emptyData⟩ =
      Except.ok (initialWsState, []) := ⟨rfl, rfl⟩

/-- C10: `signWebSocketMessage` returns its request with exactly the
`signature` field set to `[apiKey, sig('instruction=subscribe&timestamp=
<t>&window=<w>'), t, w]` (window from `options.recvWindow`, default
5000); `method` and `params` are untouched, and the result does not
depend on the caller-supplied `params` argument at all. -/
theorem signWebSocketMessage_frame (sigFn : String → String) (apiKey : String)
    (recvWindow : Option Nat) (ts : Nat) (req : WsRequest)
    (ps : List (String × String)) :
    signWebSocketMessage sigFn apiKey recvWindow ts req ps =
      { req with signature := some [apiKey,
          sigFn ("instruction=subscribe&timestamp=" ++ natToString ts ++
            "&window=" ++ natToString (recvWindow.getD 5000)),
          natToString ts, natToString (recvWindow.getD 5000)] }
    ∧ (signWebSocketMessage sigFn apiKey recvWindow ts req ps).method = req.method
    ∧ (signWebSocketMessage sigFn apiKey recvWindow ts req ps).params = req.params
    ∧ ∀ ps2 : List (String × String),
        signWebSocketMessage sigFn apiKey recvWindow ts req ps =
          signWebSocketMessage sigFn apiKey recvWindow ts req ps2 :=
  ⟨rfl, rfl, rfl, fun _ => rfl⟩

end Backpack
